import Mathlib

/-!
Verification of the highcharts-axis-labels-shorten plugin.

The source file installs three pieces on a charting axis: a greedy
text-shortening routine (getShortened), a memoizing text-measurement method
(TextShortener.prototype.measureText), and a tick positioner, all wired in by a
wrapper around the axis init.

Modelling conventions:
  - JavaScript strings are lists of characters (List Char).
  - Pixel widths returned by the DOM measurer and supplied by the host are
    finite IEEE doubles; they are modelled as exact rationals.  The special
    values Infinity, -Infinity and NaN that the shortening loop can create by
    dividing by zero are modelled explicitly by the JSNum type.
  - The measure function is a parameter (as in the source, where getShortened
    receives measureFunction); the class name argument only selects the font
    used by the measurer, so it is folded into the measure function.
  - The loop in getShortened is modelled with explicit fuel so that the
    possibility of non-termination is expressible; the JavaScript function
    returns exactly when the fuelled model returns some result.
-/

/-- JavaScript double values reachable in this plugin.  Finite values are exact
rationals; inf, negInf and nan model the IEEE special values that division by
zero produces. -/
inductive JSNum where
  | num (q : ℚ)
  | inf
  | negInf
  | nan
deriving DecidableEq

/-- JavaScript division, on the values reachable here. -/
def JSNum.div : JSNum → JSNum → JSNum
  | .num a, .num b =>
      if b = 0 then (if a = 0 then .nan else if 0 < a then .inf else .negInf)
      else .num (a / b)
  | .num _, .inf => .num 0
  | .num _, .negInf => .num 0
  | .inf, .num b => if b < 0 then .negInf else .inf
  | .negInf, .num b => if b < 0 then .inf else .negInf
  | .inf, .inf => .nan
  | .inf, .negInf => .nan
  | .negInf, .inf => .nan
  | .negInf, .negInf => .nan
  | .nan, _ => .nan
  | _, .nan => .nan

/-- JavaScript subtraction. -/
def JSNum.sub : JSNum → JSNum → JSNum
  | .num a, .num b => .num (a - b)
  | .num _, .inf => .negInf
  | .num _, .negInf => .inf
  | .inf, .num _ => .inf
  | .negInf, .num _ => .negInf
  | .inf, .inf => .nan
  | .inf, .negInf => .inf
  | .negInf, .inf => .negInf
  | .negInf, .negInf => .nan
  | .nan, _ => .nan
  | _, .nan => .nan

/-- Math.ceil. -/
def JSNum.ceil : JSNum → JSNum
  | .num q => .num (⌈q⌉ : ℚ)
  | .inf => .inf
  | .negInf => .negInf
  | .nan => .nan

/-- Math.max on two arguments: NaN if either argument is NaN. -/
def JSNum.max : JSNum → JSNum → JSNum
  | .nan, _ => .nan
  | _, .nan => .nan
  | .inf, _ => .inf
  | _, .inf => .inf
  | .negInf, b => b
  | a, .negInf => a
  | .num a, .num b => .num (Max.max a b)

/-- The JavaScript comparison a < b; false whenever either side is NaN. -/
def JSNum.lt : JSNum → JSNum → Bool
  | .nan, _ => false
  | _, .nan => false
  | .num a, .num b => decide (a < b)
  | .num _, .inf => true
  | .num _, .negInf => false
  | .inf, _ => false
  | .negInf, .num _ => true
  | .negInf, .inf => true
  | .negInf, .negInf => false

/-- Conversion of a value used as the end argument of String.prototype.substring
applied at start 0 on a string of length len: ToIntegerOrInfinity (NaN becomes 0,
truncation toward zero) followed by clamping into the interval from 0 to len.
For values at least 0 truncation agrees with the floor used here, and negative
values are clamped to 0 either way. -/
def JSNum.toIndex (len : ℕ) : JSNum → ℕ
  | .num q => min len (Int.toNat ⌊q⌋)
  | .inf => len
  | .negInf => 0
  | .nan => 0

/-- The three-dot ellipsis marker appended to a shortened label. -/
def ellipsis : List Char := ['.', '.', '.']

/-- Outcome of one pass through the body of the do-while loop of getShortened
(source lines 85-102): break out of the loop, return the single-dot
placeholder, or continue with a new candidate. -/
inductive ShortenStep where
  | done (s : List Char)
  | dot
  | next (s : List Char)
deriving DecidableEq

/-- One iteration of the loop of getShortened, translated from source lines
86-101:
  w = measureFunction(short, className).width;
  if (w < width) break;
  oneLetterApprox = w / short.length;
  overlap = w - width;
  keepChars = Math.max(0, short.length - Math.ceil(overlap / oneLetterApprox) - 3);
  if (keepChars < 1) return the dot placeholder;
  short = short.substring(0, keepChars);
The measured width w and the target width are finite, so plain rational
arithmetic is used for them; the divisions go through JSNum because
short.length or oneLetterApprox can be zero. -/
def shortenStep (short : List Char) (width : ℚ) (m : List Char → ℚ) : ShortenStep :=
  let w : ℚ := m short
  if w < width then .done short
  else
    let oneLetterApprox := JSNum.div (.num w) (.num (short.length : ℚ))
    let overlap : ℚ := w - width
    let keepChars := JSNum.max (.num 0)
      (JSNum.sub (JSNum.sub (.num (short.length : ℚ))
        (JSNum.ceil (JSNum.div (.num overlap) oneLetterApprox))) (.num 3))
    if keepChars.lt (.num 1) then .dot
    else .next (short.take (keepChars.toIndex short.length))

/-- The do-while loop of getShortened with explicit fuel; the flag records the
variable named shortened in the source.  A none result means the loop has not
returned within the given number of iterations. -/
def shortenLoop (width : ℚ) (m : List Char → ℚ) : ℕ → List Char → Bool → Option (List Char)
  | 0, _, _ => none
  | fuel + 1, short, shortened =>
    match shortenStep short width m with
    | .done s => some (s ++ if shortened then ellipsis else [])
    | .dot => some ['.']
    | .next s => shortenLoop width m fuel s true

/-- getShortened (source lines 80-105).  The fuel text.length + 1 is enough for
every terminating run: each continuing iteration replaces the candidate by a
strictly shorter take of it whenever the loop can return at all. -/
def getShortened (text : List Char) (width : ℚ) (m : List Char → ℚ) : Option (List Char) :=
  shortenLoop width m (text.length + 1) text false

/-- The loop of getShortened returns on the given input with some amount of
fuel. -/
def ShortenTerminates (text : List Char) (width : ℚ) (m : List Char → ℚ) : Prop :=
  ∃ fuel, (shortenLoop width m fuel text false).isSome = true

/-- A simple measure function assigning width 1 to every character, used to
instantiate theorems at concrete inputs. -/
def measureLen : List Char → ℚ := fun s => (s.length : ℚ)

/-- Per-character widths of a proportional font in which the full stop is wider
than the letter l, as in any font whose l is a thin stroke. -/
def narrowCharWidth : Char → ℚ := fun c => if c = 'l' then 1 else if c = '.' then 2 else 0

/-- An additive measure function built from narrowCharWidth. -/
def narrowMeasure : List Char → ℚ := fun s => (s.map narrowCharWidth).sum

/-- Truncation toward zero of a rational, as the ToInteger step of the
JavaScript remainder operator performs on finite values. -/
def jsTrunc (q : ℚ) : ℤ := if q < 0 then -⌊-q⌋ else ⌊q⌋

/-- The JavaScript remainder a % b for finite nonzero b:
a - b * truncate (a / b), so the result carries the sign of the dividend. -/
def jsRem (a b : ℚ) : ℚ := a - b * (jsTrunc (a / b) : ℚ)

/-- The JavaScript expression idx % skip for a natural number index idx and an
arbitrary skip value: NaN when skip is 0 or NaN, idx itself when skip is
infinite, and the remainder otherwise. -/
def jsModNat (i : ℕ) : JSNum → JSNum
  | .num q => if q = 0 then .nan else .num (jsRem (i : ℚ) q)
  | .inf => .num (i : ℚ)
  | .negInf => .num (i : ℚ)
  | .nan => .nan

/-- The tick positioner merged into the axis options (source lines 166-180):
  perTickWidth = labelsRotated ? 20 : 80;
  ticks = Math.floor(plotWidth / perTickWidth);
  skip = Math.ceil(categories.length / ticks);
  return indices idx of the categories with idx % skip === 0.
The division by ticks goes through JSNum because ticks can be zero. -/
def tickPositioner (rotated : Bool) (plotWidth : ℚ) (n : ℕ) : List ℕ :=
  let perTickWidth : ℚ := if rotated then 20 else 80
  let ticks : ℤ := ⌊plotWidth / perTickWidth⌋
  let skip : JSNum := (JSNum.div (.num (n : ℚ)) (.num (ticks : ℚ))).ceil
  (List.range n).filter (fun idx => decide (jsModNat idx skip = JSNum.num 0))

/-- The non-breaking space character U+00A0. -/
def nbspChar : Char := Char.ofNat 160

/-- The category rewrite applied to each category string (source line 182):
category.replace going over every space character and substituting the
non-breaking space. -/
def spaceToNbsp (s : List Char) : List Char :=
  s.map (fun c => if c = ' ' then nbspChar else c)

/-- A measured width/height pair as returned by the DOM measurer. -/
structure TextDim where
  width : ℚ
  height : ℚ
deriving DecidableEq

/-- The two-level cache of TextShortener: class name to text to measured
dimensions; absent entries are none. -/
def MeasureCache := String → List Char → Option TextDim

/-- TextShortener.prototype.measureText (source lines 124-134) as a state
transition on the cache.  The underlying DOM measurer (the top-level
measureText of the source, whose result depends on the rendering engine) is the
parameter dom.  The source materialises the per-class map on first use; the
functional model folds both lookup levels into one. -/
def measureText (dom : List Char → String → TextDim) (cache : MeasureCache)
    (text : List Char) (className : String) : TextDim × MeasureCache :=
  match cache className text with
  | some d => (d, cache)
  | none =>
      let d := dom text className
      (d, fun cl tx => if cl = className ∧ tx = text then some d else cache cl tx)

/-- Run a sequence of measureText calls, each given as a text and a class name,
threading the cache through. -/
def runMeasure (dom : List Char → String → TextDim) (cache : MeasureCache)
    (calls : List (List Char × String)) : MeasureCache :=
  calls.foldl (fun c p => (measureText dom c p.1 p.2).2) cache

/-- The labels part of the axis options.  The rotation field records the
truthiness of labels.rotation; the remaining fields are the properties the
plugin merges in, absent (none) before the merge. -/
structure LabelsOptions where
  rotation : Bool := false
  maxStaggerLines : Option ℕ := none
  overflow : Option Bool := none
  formatter : Option (ℚ → ℕ → List Char → Option (List Char)) := none

/-- The axis options object, restricted to the properties the plugin reads or
writes. -/
structure AxisOptions where
  isX : Bool := false
  shortenLabels : Bool := false
  labels : Option LabelsOptions := none
  tickPositioner : Option (ℚ → ℕ → List ℕ) := none
  categories : List (List Char) := []

/-- The truthiness of options.labels && options.labels.rotation (source line
145). -/
def labelsRotated (opts : AxisOptions) : Bool :=
  match opts.labels with
  | none => false
  | some l => l.rotation

/-- Math.round: floor of the value plus one half. -/
def jsRound (q : ℚ) : ℤ := ⌊q + 1 / 2⌋

/-- The label formatter merged into the labels options (source lines 156-164):
the pixel budget is 200 when the labels are rotated, otherwise
Math.round(plotWidth / tickPositions.length), and the label value is shortened
to that budget.  Modelled for a positive tick count, which the host guarantees;
the class name passed to the cached measurer only selects the font and is
folded into the measure function m. -/
def axisLabelFormatter (m : List Char → ℚ) (rotated : Bool) (plotWidth : ℚ)
    (tickCount : ℕ) (value : List Char) : Option (List Char) :=
  let pixelWidth : ℚ := if rotated then 200 else (jsRound (plotWidth / (tickCount : ℚ)) : ℚ)
  getShortened value pixelWidth m

/-- The wrapper installed around Axis.prototype.init (source lines 142-188).
It returns the options object that reaches the original init together with a
flag recording whether the merge of formatter, tick positioner and category
rewrite was applied.  When isX or shortenLabels is falsy the original init
receives the options untouched; otherwise H.merge overwrites the merged
properties in place, keeping the original labels.rotation. -/
def axisInit (m : List Char → ℚ) (opts : AxisOptions) : AxisOptions × Bool :=
  let rotated := labelsRotated opts
  if !opts.isX || !opts.shortenLabels then (opts, false)
  else
    let base := opts.labels.getD {}
    let tp := tickPositioner rotated
    ({ isX := opts.isX
       shortenLabels := opts.shortenLabels
       labels := some { base with
         maxStaggerLines := some 1
         overflow := some false
         formatter := some (axisLabelFormatter m rotated) }
       tickPositioner := some tp
       categories := opts.categories.map spaceToNbsp }, true)

/-- A concrete active axis options object, used to instantiate theorems. -/
def activeOpts : AxisOptions where
  isX := true
  shortenLabels := true
  categories := [['a', ' ', 'b'], ['c']]

/-- A concrete inactive axis options object (isX is false). -/
def inactiveOpts : AxisOptions where
  isX := false
  shortenLabels := true
  categories := [['a', ' ', 'b']]

/-- A constant DOM measurer, used to instantiate the cache theorems. -/
def constDom : List Char → String → TextDim := fun _ _ => ⟨3, 4⟩

/-- A concrete one-entry cache, used to instantiate the cache theorems. -/
def oneEntryCache : MeasureCache :=
  fun cl tx => if cl = "axis" ∧ tx = ['a'] then some ⟨1, 2⟩ else none

/-! Helper lemmas about one iteration of the shortening loop. -/

lemma shortenStep_fits {short : List Char} {width : ℚ} {m : List Char → ℚ}
    (h : m short < width) : shortenStep short width m = .done short := by
  unfold shortenStep
  rw [if_pos h]

lemma shortenStep_done_inv {short s : List Char} {width : ℚ} {m : List Char → ℚ}
    (h : shortenStep short width m = .done s) : s = short ∧ m short < width := by
  unfold shortenStep at h
  by_cases hw : m short < width
  · rw [if_pos hw] at h
    exact ⟨(ShortenStep.done.injEq _ _ ▸ h).symm, hw⟩
  · rw [if_neg hw] at h
    dsimp only at h
    split at h <;> simp_all

lemma shortenStep_next_inv {short s : List Char} {width : ℚ} {m : List Char → ℚ}
    (h : shortenStep short width m = .next s) :
    s <+: short ∧ ¬ m short < width := by
  unfold shortenStep at h
  by_cases hw : m short < width
  · rw [if_pos hw] at h
    simp_all
  · rw [if_neg hw] at h
    dsimp only at h
    split at h
    · simp_all
    · refine ⟨?_, hw⟩
      have hs : s = short.take _ := (ShortenStep.next.injEq _ _ ▸ h).symm
      exact hs ▸ ⟨short.drop _, List.take_append_drop _ _⟩

/-- The keepChars computation of the loop body, in plain integer arithmetic:
when the candidate is nonempty, the target width positive and the candidate at
least as wide as the target, one iteration retains
max 0 (length - ceil(overlap / averageCharWidth) - 3) characters and returns
the dot placeholder when that count is below 1. -/
lemma shortenStep_eval (short : List Char) (width : ℚ) (m : List Char → ℚ)
    (h1 : short ≠ []) (h2 : 0 < width) (h3 : width ≤ m short) :
    shortenStep short width m =
      if Max.max 0 ((short.length : ℤ) -
          ⌈(m short - width) / (m short / (short.length : ℚ))⌉ - 3) < 1
      then ShortenStep.dot
      else ShortenStep.next (short.take (Int.toNat (Max.max 0 ((short.length : ℤ) -
          ⌈(m short - width) / (m short / (short.length : ℚ))⌉ - 3)))) := by
  have hw : (0 : ℚ) < m short := h2.trans_le h3
  have hL0 : 0 < short.length := List.length_pos.mpr h1
  have hL : ((short.length : ℚ)) ≠ 0 := Nat.cast_ne_zero.mpr hL0.ne'
  have hdiv : m short / (short.length : ℚ) ≠ 0 := div_ne_zero hw.ne' hL
  have hnot : ¬ m short < width := not_lt.mpr h3
  have hc0 : 0 ≤ ⌈(m short - width) / (m short / (short.length : ℚ))⌉ :=
    Int.ceil_nonneg (div_nonneg (sub_nonneg.mpr h3) (div_nonneg hw.le (Nat.cast_nonneg _)))
  set c : ℤ := ⌈(m short - width) / (m short / (short.length : ℚ))⌉ with hc
  set K : ℤ := Max.max 0 ((short.length : ℤ) - c - 3) with hK
  have hKcast : Max.max 0 ((short.length : ℚ) - (c : ℚ) - 3) = ((K : ℤ) : ℚ) := by
    rw [hK]
    push_cast
    ring_nf
  have hKle : K ≤ (short.length : ℤ) := by
    rw [hK]
    have : (short.length : ℤ) - c - 3 ≤ (short.length : ℤ) := by omega
    omega
  unfold shortenStep
  rw [if_neg hnot]
  simp only [JSNum.div, if_neg hL, if_neg hdiv, JSNum.ceil, JSNum.sub, JSNum.max, JSNum.lt,
    JSNum.toIndex, ← hc, hKcast, Int.floor_intCast, decide_eq_true_eq]
  have hmin : min short.length K.toNat = K.toNat :=
    min_eq_right (Int.toNat_le.mpr hKle)
  rw [hmin]
  by_cases hKlt : K < 1
  · rw [if_pos (by exact_mod_cast hKlt), if_pos hKlt]
  · rw [if_neg (by exact_mod_cast hKlt), if_neg hKlt]

/-- With a positive target width, every continuing iteration strictly shortens
the candidate. -/
lemma shortenStep_next_length {short s : List Char} {width : ℚ} {m : List Char → ℚ}
    (hw : 0 < width) (h : shortenStep short width m = .next s) :
    s.length < short.length := by
  have hnot : ¬ m short < width := (shortenStep_next_inv h).2
  have hwle : width ≤ m short := not_lt.mp hnot
  have hm0 : (0 : ℚ) < m short := hw.trans_le hwle
  rcases eq_or_ne short [] with hnil | hnil
  · subst hnil
    unfold shortenStep at h
    rw [if_neg hnot] at h
    dsimp only at h
    simp only [List.length_nil, Nat.cast_zero, JSNum.div, if_pos rfl, if_neg hm0.ne',
      if_pos hm0, JSNum.ceil, JSNum.sub, JSNum.max, JSNum.lt] at h
    norm_num at h
    exact ShortenStep.noConfusion h
  · rw [shortenStep_eval short width m hnil hw hwle] at h
    set c : ℤ := ⌈(m short - width) / (m short / (short.length : ℚ))⌉ with hc
    have hc0 : 0 ≤ c :=
      Int.ceil_nonneg (div_nonneg (sub_nonneg.mpr hwle) (div_nonneg hm0.le (Nat.cast_nonneg _)))
    split at h
    · simp at h
    · rename_i hKlt
      have hK1 : 1 ≤ Max.max 0 ((short.length : ℤ) - c - 3) := by omega
      have hs : s = short.take (Int.toNat (Max.max 0 ((short.length : ℤ) - c - 3))) := by
        simpa using h.symm
      have hKlen : Max.max 0 ((short.length : ℤ) - c - 3) < (short.length : ℤ) := by omega
      rw [hs, List.length_take]
      omega

lemma length_lt_of_proper_take {s l : List Char} (hpre : s <+: l) (hne : s ≠ l) :
    s.length < l.length := by
  obtain ⟨t, rfl⟩ := hpre
  rcases t with _ | ⟨a, t⟩
  · simp at hne
  · simp

/-- Every value the loop can return is the dot placeholder, the starting
candidate when it fits (with the ellipsis appended when the flag is already
set), or a strictly shorter fitting take of the candidate followed by the
ellipsis. -/
lemma shortenLoop_shape {width : ℚ} {m : List Char → ℚ} :
    ∀ (fuel : ℕ) (short : List Char) (flag : Bool) (r : List Char),
      shortenLoop width m fuel short flag = some r →
      r = ['.']
      ∨ (flag = false ∧ r = short ∧ m short < width)
      ∨ (flag = true ∧ r = short ++ ellipsis ∧ m short < width)
      ∨ (∃ p, p <+: short ∧ p.length < short.length ∧ m p < width ∧ r = p ++ ellipsis) := by
  intro fuel
  induction fuel with
  | zero => intro short flag r h; simp [shortenLoop] at h
  | succ n ih =>
    intro short flag r h
    rw [shortenLoop] at h
    cases hstep : shortenStep short width m with
    | done s =>
      rw [hstep] at h
      obtain ⟨rfl, hfit⟩ := shortenStep_done_inv hstep
      cases flag with
      | false =>
        refine Or.inr (Or.inl ⟨rfl, ?_, hfit⟩)
        simpa using h.symm
      | true =>
        refine Or.inr (Or.inr (Or.inl ⟨rfl, ?_, hfit⟩))
        simpa using h.symm
    | dot =>
      rw [hstep] at h
      exact Or.inl (by simpa using h.symm)
    | next s =>
      rw [hstep] at h
      obtain ⟨hpre, hnfit⟩ := shortenStep_next_inv hstep
      rcases ih s true r h with h1 | h2 | h3 | h4
      · exact Or.inl h1
      · exact absurd h2.1 (by simp)
      · obtain ⟨-, hr, hfit⟩ := h3
        refine Or.inr (Or.inr (Or.inr ⟨s, hpre, ?_, hfit, hr⟩))
        exact length_lt_of_proper_take hpre (fun hss => hnfit (hss ▸ hfit))
      · obtain ⟨p, hp1, hp2, hp3, hp4⟩ := h4
        exact Or.inr (Or.inr (Or.inr ⟨p, hp1.trans hpre, hp2.trans_le hpre.length_le, hp3, hp4⟩))

/-- With a positive target width, fuel one more than the candidate length is
enough for the loop to return. -/
lemma shortenLoop_isSome_of_pos {width : ℚ} {m : List Char → ℚ} (hw : 0 < width) :
    ∀ (n : ℕ) (short : List Char) (flag : Bool), short.length ≤ n →
      (shortenLoop width m (n + 1) short flag).isSome = true := by
  intro n
  induction n with
  | zero =>
    intro short flag hlen
    rw [shortenLoop]
    cases hstep : shortenStep short width m with
    | done s => simp
    | dot => simp
    | next s =>
      have := shortenStep_next_length hw hstep
      omega
  | succ n ih =>
    intro short flag hlen
    rw [shortenLoop]
    cases hstep : shortenStep short width m with
    | done s => simp
    | dot => simp
    | next s =>
      have hlt := shortenStep_next_length hw hstep
      exact ih s true (by omega)

/-- With target width 0 and a measure function giving the empty string width 0,
the loop never leaves the empty string: the division 0 / 0 yields NaN,
Math.max(0, NaN) is NaN, the comparison NaN < 1 is false, and
substring(0, NaN) is the empty string again. -/
lemma shortenLoop_empty_none {m : List Char → ℚ} (h0 : m [] = 0) :
    ∀ (fuel : ℕ) (flag : Bool), shortenLoop 0 m fuel [] flag = none := by
  have hstep : shortenStep [] 0 m = .next [] := by
    unfold shortenStep
    rw [if_neg (by rw [h0]; exact lt_irrefl 0)]
    dsimp only
    rw [h0]
    simp [JSNum.div, JSNum.ceil, JSNum.sub, JSNum.max, JSNum.lt, JSNum.toIndex]
  intro fuel
  induction fuel with
  | zero => intro flag; rfl
  | succ n ih =>
    intro flag
    rw [shortenLoop, hstep]
    exact ih true

/-- One unfolding of the loop. -/
lemma shortenLoop_succ (width : ℚ) (m : List Char → ℚ) (fuel : ℕ) (short : List Char)
    (flag : Bool) :
    shortenLoop width m (fuel + 1) short flag =
      match shortenStep short width m with
      | .done s => some (s ++ if flag then ellipsis else [])
      | .dot => some ['.']
      | .next s => shortenLoop width m fuel s true := rfl

/-- Claim C2: a string whose measured width is below the target is returned
unchanged by getShortened; in particular applying getShortened to its own
fitting output returns that output unchanged. -/
theorem getShortened_id_of_fits (text : List Char) (width : ℚ) (m : List Char → ℚ)
    (h : m text < width) : getShortened text width m = some text := by
  unfold getShortened
  rw [shortenLoop_succ, shortenStep_fits h]
  simp

theorem getShortened_id_of_fits_witness :
    measureLen ['a', 'b'] < 5 ∧ getShortened ['a', 'b'] 5 measureLen = some ['a', 'b'] :=
  ⟨by decide, getShortened_id_of_fits ['a', 'b'] 5 measureLen (by decide)⟩

/-- Claim C9: every value getShortened returns is the input itself (in which
case it fits), the single dot placeholder, or a strict prefix of the input
followed by the three-dot ellipsis; in particular its characters are drawn from
the input plus dots. -/
theorem getShortened_result_shapes (text : List Char) (width : ℚ) (m : List Char → ℚ)
    (r : List Char) (h : getShortened text width m = some r) :
    (r = text ∧ m text < width) ∨ r = ['.'] ∨
      ∃ p, p <+: text ∧ p ≠ text ∧ r = p ++ ellipsis := by
  rcases shortenLoop_shape _ text false r h with h1 | h2 | h3 | h4
  · exact Or.inr (Or.inl h1)
  · exact Or.inl ⟨h2.2.1, h2.2.2⟩
  · exact absurd h3.1 (by simp)
  · obtain ⟨p, hp1, hp2, -, hp4⟩ := h4
    exact Or.inr (Or.inr ⟨p, hp1, fun hpt => absurd hp2 (by simp [hpt]), hp4⟩)

theorem getShortened_result_shapes_witness :
    getShortened ['a'] 3 measureLen = some ['a'] ∧
      (((['a'] : List Char) = ['a'] ∧ measureLen ['a'] < 3) ∨ (['a'] : List Char) = ['.'] ∨
        ∃ p, p <+: (['a'] : List Char) ∧ p ≠ ['a'] ∧ ['a'] = p ++ ellipsis) :=
  ⟨by decide, getShortened_result_shapes ['a'] 3 measureLen ['a'] (by decide)⟩

/-- Claim C1, amended: whenever getShortened returns a string, either it is the
dot placeholder, or the part of it preceding the appended ellipsis (the whole
string when nothing was cut) has measured width strictly below the target; the
ellipsis itself is appended after the final measurement. -/
theorem getShortened_fit_guarantee (text : List Char) (width : ℚ) (m : List Char → ℚ)
    (r : List Char) (h : getShortened text width m = some r) :
    r = ['.'] ∨ (r = text ∧ m text < width) ∨ ∃ p, r = p ++ ellipsis ∧ m p < width := by
  rcases shortenLoop_shape _ text false r h with h1 | h2 | h3 | h4
  · exact Or.inl h1
  · exact Or.inr (Or.inl ⟨h2.2.1, h2.2.2⟩)
  · exact absurd h3.1 (by simp)
  · obtain ⟨p, -, -, hp3, hp4⟩ := h4
    exact Or.inr (Or.inr ⟨p, hp4, hp3⟩)

theorem getShortened_fit_guarantee_witness :
    getShortened ['x', 'y'] 4 measureLen = some ['x', 'y'] ∧
      ((['x', 'y'] : List Char) = ['.'] ∨
        ((['x', 'y'] : List Char) = ['x', 'y'] ∧ measureLen ['x', 'y'] < 4) ∨
        ∃ p, (['x', 'y'] : List Char) = p ++ ellipsis ∧ measureLen p < 4) :=
  ⟨by decide, getShortened_fit_guarantee ['x', 'y'] 4 measureLen ['x', 'y'] (by decide)⟩

/-- Claim C1, counterexample: for ten letters l of width 1 in a font whose full
stop has width 2, shortening to width 19/2 returns six letters followed by the
ellipsis, a string of measured width 12 > 19/2 that is not the dot placeholder:
the appended ellipsis is never measured against the target. -/
theorem getShortened_overflow_cex :
    getShortened (List.replicate 10 'l') (19 / 2) narrowMeasure =
      some (List.replicate 6 'l' ++ ellipsis)
    ∧ ¬ narrowMeasure (List.replicate 6 'l' ++ ellipsis) ≤ 19 / 2
    ∧ List.replicate 6 'l' ++ ellipsis ≠ ['.'] := by
  have hm10 : narrowMeasure (List.replicate 10 'l') = 10 := by
    simp [narrowMeasure, narrowCharWidth, List.map_replicate, List.sum_replicate]
    norm_num
  have hm6 : narrowMeasure (List.replicate 6 'l') = 6 := by
    simp [narrowMeasure, narrowCharWidth, List.map_replicate, List.sum_replicate]
    norm_num
  have hm9 : narrowMeasure (List.replicate 6 'l' ++ ellipsis) = 12 := by
    simp [narrowMeasure, narrowCharWidth, ellipsis, List.map_replicate, List.sum_replicate]
    norm_num
  have hceil : (⌈(narrowMeasure (List.replicate 10 'l') - 19 / 2) /
      (narrowMeasure (List.replicate 10 'l') / ((List.replicate 10 'l').length : ℚ))⌉ : ℤ) = 1 := by
    rw [hm10]
    simp only [List.length_replicate]
    rw [Int.ceil_eq_iff]
    norm_num
  have hstep1 : shortenStep (List.replicate 10 'l') (19 / 2) narrowMeasure =
      .next (List.replicate 6 'l') := by
    rw [shortenStep_eval _ _ _ (by simp) (by norm_num) (by rw [hm10]; norm_num), hceil]
    norm_num [List.take_replicate]
    decide
  have hstep2 : shortenStep (List.replicate 6 'l') (19 / 2) narrowMeasure =
      .done (List.replicate 6 'l') :=
    shortenStep_fits (by rw [hm6]; norm_num)
  refine ⟨?_, by rw [hm9]; norm_num, by decide⟩
  unfold getShortened
  simp only [List.length_replicate]
  rw [shortenLoop_succ, hstep1]
  dsimp only
  rw [show (10 : ℕ) = 9 + 1 from rfl, shortenLoop_succ, hstep2]
  simp

/-- Claim C3, amended: for every strictly positive target width the loop of
getShortened terminates (fuel one more than the text length suffices), and the
candidate length strictly decreases on every iteration that does not exit; for
width at most 0 the loop can run forever. -/
theorem getShortened_terminates_of_pos (text : List Char) (width : ℚ) (m : List Char → ℚ)
    (h : 0 < width) :
    (getShortened text width m).isSome = true ∧
      ∀ (short s : List Char), shortenStep short width m = .next s → s.length < short.length :=
  ⟨shortenLoop_isSome_of_pos h text.length text false le_rfl,
    fun _ _ hs => shortenStep_next_length h hs⟩

theorem getShortened_terminates_of_pos_witness :
    (0 : ℚ) < 7 ∧ ((getShortened ['x', 'y', 'z'] 7 measureLen).isSome = true ∧
      ∀ (short s : List Char), shortenStep short 7 measureLen = .next s →
        s.length < short.length) :=
  ⟨by decide, getShortened_terminates_of_pos ['x', 'y', 'z'] 7 measureLen (by decide)⟩

/-- Claim C3, counterexample: with the empty text and target width 0 the loop
body neither exits nor shrinks the candidate (the empty candidate maps to
itself through the NaN arithmetic), and the loop never returns with any amount
of fuel. -/
theorem shorten_nontermination_cex :
    shortenStep [] 0 measureLen = ShortenStep.next [] ∧ ¬ ShortenTerminates [] 0 measureLen := by
  refine ⟨by decide, ?_⟩
  rintro ⟨fuel, hf⟩
  rw [shortenLoop_empty_none (by simp [measureLen]) fuel false] at hf
  simp at hf

/-- Claim C4: in an iteration whose nonempty candidate is at least as wide as
the positive target, the retained character count is
max 0 (length - ceil(overlap / averageCharWidth) - 3) with overlap the measured
width minus the target and averageCharWidth the measured width divided by the
candidate length; when that count is below 1 the step yields the dot outcome,
on which the loop returns the single-dot placeholder. -/
theorem shortenStep_keepChars_spec (short : List Char) (width : ℚ) (m : List Char → ℚ)
    (h1 : short ≠ []) (h2 : 0 < width) (h3 : width ≤ m short) :
    (shortenStep short width m =
      if Max.max 0 ((short.length : ℤ) -
          ⌈(m short - width) / (m short / (short.length : ℚ))⌉ - 3) < 1
      then ShortenStep.dot
      else ShortenStep.next (short.take (Int.toNat (Max.max 0 ((short.length : ℤ) -
          ⌈(m short - width) / (m short / (short.length : ℚ))⌉ - 3)))))
    ∧ ∀ (fuel : ℕ) (flag : Bool), shortenStep short width m = ShortenStep.dot →
        shortenLoop width m (fuel + 1) short flag = some ['.'] := by
  refine ⟨shortenStep_eval short width m h1 h2 h3, ?_⟩
  intro fuel flag hdot
  rw [shortenLoop_succ, hdot]

/-- Claim C6: when shortening is active, the categories reaching the original
init are exactly the original categories with every space replaced by the
non-breaking space, position by position; strings without spaces are unchanged
and the length and order of the list are preserved. -/
theorem axisInit_categories (m : List Char → ℚ) (opts : AxisOptions)
    (h1 : opts.isX = true) (h2 : opts.shortenLabels = true) :
    ((axisInit m opts).1.categories = opts.categories.map spaceToNbsp)
    ∧ (∀ s : List Char, ' ' ∉ spaceToNbsp s)
    ∧ (∀ (s : List Char) (i : ℕ) (hi : i < s.length) (hi2 : i < (spaceToNbsp s).length),
        (spaceToNbsp s)[i] = if s[i] = ' ' then nbspChar else s[i])
    ∧ (∀ s : List Char, ' ' ∉ s → spaceToNbsp s = s)
    ∧ (axisInit m opts).1.categories.length = opts.categories.length := by
  have hcat : (axisInit m opts).1.categories = opts.categories.map spaceToNbsp := by
    unfold axisInit
    rw [if_neg (by simp [h1, h2])]
  refine ⟨hcat, ?_, ?_, ?_, by rw [hcat, List.length_map]⟩
  · intro s hmem
    unfold spaceToNbsp at hmem
    rw [List.mem_map] at hmem
    obtain ⟨c, -, hc⟩ := hmem
    by_cases hsp : c = ' '
    · rw [if_pos hsp] at hc
      exact absurd hc (by decide)
    · rw [if_neg hsp] at hc
      exact hsp hc
  · intro s i hi hi2
    unfold spaceToNbsp
    rw [List.getElem_map]
  · intro s hs
    unfold spaceToNbsp
    have heach : s.map (fun c => if c = ' ' then nbspChar else c) = s.map id :=
      List.map_congr_left (fun a ha => by rw [if_neg (fun (h : a = ' ') => hs (h ▸ ha))]; rfl)
    rw [heach, List.map_id]

theorem axisInit_categories_witness :
    activeOpts.isX = true ∧ activeOpts.shortenLabels = true ∧
    (((axisInit measureLen activeOpts).1.categories = activeOpts.categories.map spaceToNbsp)
    ∧ (∀ s : List Char, ' ' ∉ spaceToNbsp s)
    ∧ (∀ (s : List Char) (i : ℕ) (hi : i < s.length) (hi2 : i < (spaceToNbsp s).length),
        (spaceToNbsp s)[i] = if s[i] = ' ' then nbspChar else s[i])
    ∧ (∀ s : List Char, ' ' ∉ s → spaceToNbsp s = s)
    ∧ (axisInit measureLen activeOpts).1.categories.length = activeOpts.categories.length) :=
  ⟨rfl, rfl, axisInit_categories measureLen activeOpts rfl rfl⟩

/-- Claim C8: the plugin activates only when both isX and shortenLabels are
truthy; when either is falsy the wrapped init hands the original init the
options object untouched, merging no formatter, tick positioner or category
rewrite. -/
theorem axisInit_inactive (m : List Char → ℚ) (opts : AxisOptions)
    (h : opts.isX = false ∨ opts.shortenLabels = false) :
    axisInit m opts = (opts, false) := by
  unfold axisInit
  rcases h with h | h <;> rw [if_pos (by simp [h])]

theorem axisInit_inactive_witness :
    (inactiveOpts.isX = false ∨ inactiveOpts.shortenLabels = false) ∧
      axisInit measureLen inactiveOpts = (inactiveOpts, false) :=
  ⟨Or.inl rfl, axisInit_inactive measureLen inactiveOpts (Or.inl rfl)⟩

/-- Claim C7: measureText is backed by a write-once cache.  A stored entry is
returned as-is with the cache unchanged and independently of the measuring
function (so nothing is recomputed); a call stores the entry it returns; and a
stored entry survives, unchanged, any later sequence of calls, every later call
on the same pair returning exactly it. -/
theorem measureText_cache_immutable (dom : List Char → String → TextDim)
    (cache : MeasureCache) (cl : String) (tx : List Char) (d : TextDim)
    (h : cache cl tx = some d) :
    measureText dom cache tx cl = (d, cache)
    ∧ (∀ (dom2 : List Char → String → TextDim) (c0 : MeasureCache) (t : List Char) (c : String),
        ((measureText dom2 c0 t c).2) c t = some (measureText dom2 c0 t c).1)
    ∧ (∀ calls, runMeasure dom cache calls cl tx = some d)
    ∧ (∀ calls, (measureText dom (runMeasure dom cache calls) tx cl).1 = d) := by
  have hstep : ∀ (c0 : MeasureCache) (t : List Char) (c : String),
      c0 cl tx = some d → ((measureText dom c0 t c).2) cl tx = some d := by
    intro c0 t c hc
    unfold measureText
    cases hc0 : c0 c t with
    | some d2 => exact hc
    | none =>
      dsimp only
      split
      · rename_i hcc
        rw [hcc.1, hcc.2, hc0] at hc
        exact absurd hc (by simp)
      · exact hc
  have hrun : ∀ calls (c0 : MeasureCache), c0 cl tx = some d →
      runMeasure dom c0 calls cl tx = some d := by
    intro calls
    induction calls with
    | nil => intro c0 hc; exact hc
    | cons p rest ih =>
      intro c0 hc
      exact ih _ (hstep c0 p.1 p.2 hc)
  have hread : ∀ (c0 : MeasureCache), c0 cl tx = some d → measureText dom c0 tx cl = (d, c0) := by
    intro c0 hc
    unfold measureText
    rw [hc]
  refine ⟨hread cache h, ?_, fun calls => hrun calls cache h,
    fun calls => by rw [hread _ (hrun calls cache h)]⟩
  intro dom2 c0 t c
  unfold measureText
  cases hc0 : c0 c t with
  | some d2 => exact hc0
  | none =>
    dsimp only
    rw [if_pos ⟨rfl, rfl⟩]

theorem measureText_cache_immutable_witness :
    oneEntryCache "axis" ['a'] = some (⟨1, 2⟩ : TextDim) ∧
    (measureText constDom oneEntryCache ['a'] "axis" = (⟨1, 2⟩, oneEntryCache)
    ∧ (∀ (dom2 : List Char → String → TextDim) (c0 : MeasureCache) (t : List Char) (c : String),
        ((measureText dom2 c0 t c).2) c t = some (measureText dom2 c0 t c).1)
    ∧ (∀ calls, runMeasure constDom oneEntryCache calls "axis" ['a'] =
        some (⟨1, 2⟩ : TextDim))
    ∧ (∀ calls, (measureText constDom (runMeasure constDom oneEntryCache calls)
        ['a'] "axis").1 = ⟨1, 2⟩)) :=
  ⟨by simp [oneEntryCache],
    measureText_cache_immutable constDom oneEntryCache "axis" ['a'] ⟨1, 2⟩
      (by simp [oneEntryCache])⟩

/-- For a natural dividend and a positive integer divisor the JavaScript
remainder vanishes exactly when the divisor divides the dividend. -/
lemma jsRem_eq_zero_iff (i : ℕ) (s : ℤ) (hs : 0 < s) :
    jsRem (i : ℚ) ((s : ℤ) : ℚ) = 0 ↔ i % s.toNat = 0 := by
  have hsq : ((s : ℤ) : ℚ) ≠ 0 := by exact_mod_cast hs.ne'
  have hige : (0 : ℚ) ≤ (i : ℚ) / (s : ℚ) :=
    div_nonneg (Nat.cast_nonneg i) (by exact_mod_cast hs.le)
  have htr : jsTrunc ((i : ℚ) / (s : ℚ)) = ⌊(i : ℚ) / (s : ℚ)⌋ := by
    unfold jsTrunc
    rw [if_neg (not_lt.mpr hige)]
  unfold jsRem
  rw [htr]
  constructor
  · intro h
    have hiq : (i : ℚ) = (s : ℚ) * (⌊(i : ℚ) / (s : ℚ)⌋ : ℚ) := by linarith
    have hdvd : s ∣ (i : ℤ) := ⟨⌊(i : ℚ) / (s : ℚ)⌋, by exact_mod_cast hiq⟩
    have hdvd2 : s.toNat ∣ i := by
      rw [← Int.natCast_dvd_natCast]
      rwa [Int.toNat_of_nonneg hs.le]
    exact Nat.mod_eq_zero_of_dvd hdvd2
  · intro h
    obtain ⟨j, hj⟩ := Nat.dvd_of_mod_eq_zero h
    have hiZ : (i : ℤ) = s * (j : ℤ) := by
      have hcast := congrArg (Nat.cast : ℕ → ℤ) hj
      rwa [Nat.cast_mul, Int.toNat_of_nonneg hs.le] at hcast
    have hiq : (i : ℚ) = (s : ℚ) * (j : ℚ) := by
      exact_mod_cast congrArg (Int.cast : ℤ → ℚ) hiZ
    have hfloor : ⌊(i : ℚ) / (s : ℚ)⌋ = (j : ℤ) := by
      rw [hiq, mul_comm, mul_div_assoc, div_self hsq, mul_one, Int.floor_natCast]
    rw [hfloor, hiq]
    push_cast
    ring

/-- Claim C5: when at least one tick fits in the plot width, the tick
positioner returns exactly the category indices divisible by
skip = ceil(categoryCount / floor(plotWidth / perTickWidth)), with per-tick
width 20 when the labels are rotated and 80 otherwise, in increasing order. -/
theorem tickPositioner_formula (rotated : Bool) (plotWidth : ℚ) (n : ℕ)
    (h : 1 ≤ ⌊plotWidth / (if rotated then (20 : ℚ) else 80)⌋) :
    tickPositioner rotated plotWidth n =
      (List.range n).filter (fun idx => decide (idx %
        Int.toNat ⌈(n : ℚ) / ((⌊plotWidth / (if rotated then (20 : ℚ) else 80)⌋ : ℤ) : ℚ)⌉ = 0))
    ∧ List.Pairwise (· < ·) (tickPositioner rotated plotWidth n) := by
  constructor
  · unfold tickPositioner
    dsimp only
    set t : ℤ := ⌊plotWidth / (if rotated then (20 : ℚ) else 80)⌋ with ht
    have htq : ((t : ℤ) : ℚ) ≠ 0 := by exact_mod_cast (by omega : t ≠ 0)
    rcases Nat.eq_zero_or_pos n with hn | hn
    · subst hn
      simp
    · have hdiv : JSNum.div (.num (n : ℚ)) (.num (t : ℚ)) = .num ((n : ℚ) / (t : ℚ)) := by
        simp [JSNum.div, htq]
      set s : ℤ := ⌈(n : ℚ) / (t : ℚ)⌉ with hsdef
      have hs : 0 < s := Int.ceil_pos.mpr
        (div_pos (by exact_mod_cast hn) (by exact_mod_cast (by omega : (0 : ℤ) < t)))
      have hfun : (fun idx => decide (jsModNat idx (.num ((s : ℤ) : ℚ)) = JSNum.num 0)) =
          (fun idx => decide (idx % s.toNat = 0)) := by
        funext idx
        rw [decide_eq_decide]
        simp only [jsModNat,
          if_neg (show ((s : ℤ) : ℚ) ≠ 0 from by exact_mod_cast hs.ne'), JSNum.num.injEq]
        exact jsRem_eq_zero_iff idx s hs
      simp only [hdiv, JSNum.ceil, hfun]
  · unfold tickPositioner
    exact (List.pairwise_lt_range n).sublist (List.filter_sublist _)

theorem tickPositioner_formula_witness :
    1 ≤ ⌊(200 : ℚ) / (if false then (20 : ℚ) else 80)⌋ ∧
      (tickPositioner false 200 5 =
        (List.range 5).filter (fun idx => decide (idx %
          Int.toNat ⌈(5 : ℚ) / ((⌊(200 : ℚ) / (if false then (20 : ℚ) else 80)⌋ : ℤ) : ℚ)⌉ = 0))
      ∧ List.Pairwise (· < ·) (tickPositioner false 200 5)) :=
  ⟨by rw [if_neg (by simp)]; rw [Int.le_floor]; norm_num,
    tickPositioner_formula false 200 5 (by rw [if_neg (by simp)]; rw [Int.le_floor]; norm_num)⟩

/-- Claim C10: for a non-empty category list and a nonnegative plot width the
tick positioner always keeps index 0: the skip value is a positive integer
when at least one tick fits, and is Infinity (with 0 % Infinity = 0) when none
does. -/
theorem tickPositioner_zero_mem (rotated : Bool) (plotWidth : ℚ) (n : ℕ)
    (h1 : 0 ≤ plotWidth) (h2 : 1 ≤ n) : 0 ∈ tickPositioner rotated plotWidth n := by
  unfold tickPositioner
  dsimp only
  set t : ℤ := ⌊plotWidth / (if rotated then (20 : ℚ) else 80)⌋ with ht
  have ht0 : 0 ≤ t := Int.floor_nonneg.mpr (div_nonneg h1 (by split <;> norm_num))
  have hn0 : ((n : ℚ)) ≠ 0 := by exact_mod_cast (by omega : n ≠ 0)
  have hn0' : (0 : ℚ) < (n : ℚ) := by exact_mod_cast (by omega : 0 < n)
  rw [List.mem_filter]
  refine ⟨List.mem_range.mpr (by omega), ?_⟩
  rcases eq_or_lt_of_le ht0 with ht1 | ht1
  · rw [show ((t : ℤ) : ℚ) = 0 from by exact_mod_cast ht1.symm]
    simp [JSNum.div, hn0, hn0', JSNum.ceil, jsModNat]
  · have htq : ((t : ℤ) : ℚ) ≠ 0 := by exact_mod_cast (by omega : t ≠ 0)
    have hs : 0 < ⌈(n : ℚ) / (t : ℚ)⌉ := Int.ceil_pos.mpr
      (div_pos hn0' (by exact_mod_cast ht1))
    simp only [JSNum.div, if_neg htq, JSNum.ceil, jsModNat,
      if_neg (show ((⌈(n : ℚ) / (t : ℚ)⌉ : ℤ) : ℚ) ≠ 0 from by exact_mod_cast hs.ne')]
    rw [decide_eq_true_eq, JSNum.num.injEq]
    exact (jsRem_eq_zero_iff 0 _ hs).mpr (Nat.zero_mod _)

theorem tickPositioner_zero_mem_witness :
    (0 : ℚ) ≤ 10 ∧ 1 ≤ 3 ∧ 0 ∈ tickPositioner false 10 3 :=
  ⟨by norm_num, by norm_num, tickPositioner_zero_mem false 10 3 (by norm_num) (by norm_num)⟩

theorem shortenStep_keepChars_spec_witness :
    (List.replicate 9 'a' ≠ []) ∧ (0 : ℚ) < 5 ∧ (5 : ℚ) ≤ measureLen (List.replicate 9 'a') ∧
      ((shortenStep (List.replicate 9 'a') 5 measureLen =
        if Max.max 0 (((List.replicate 9 'a').length : ℤ) -
            ⌈(measureLen (List.replicate 9 'a') - 5) /
              (measureLen (List.replicate 9 'a') / ((List.replicate 9 'a').length : ℚ))⌉ - 3) < 1
        then ShortenStep.dot
        else ShortenStep.next ((List.replicate 9 'a').take
          (Int.toNat (Max.max 0 (((List.replicate 9 'a').length : ℤ) -
            ⌈(measureLen (List.replicate 9 'a') - 5) /
              (measureLen (List.replicate 9 'a') / ((List.replicate 9 'a').length : ℚ))⌉ - 3)))))
      ∧ ∀ (fuel : ℕ) (flag : Bool),
          shortenStep (List.replicate 9 'a') 5 measureLen = ShortenStep.dot →
          shortenLoop 5 measureLen (fuel + 1) (List.replicate 9 'a') flag = some ['.']) :=
  ⟨by decide, by decide, by decide,
    shortenStep_keepChars_spec (List.replicate 9 'a') 5 measureLen (by decide) (by decide)
      (by decide)⟩
